import Mathlib

/-!
Shallow embedding of the todo-tui task manager (src/lib.rs, src/ui.rs).

The program is a terminal task list: a `Task` data entity, a generic
`StateFullList` (a vector plus an optional selection cursor), and the
event loop `run_app`, which dispatches one key event at a time on an
`App` value holding the list, the current input mode, the active popup
and the two draft text buffers (`app.input`, a vector of exactly two
strings created in `App::new`).

Modelling conventions:
- Rust `usize` indices and lengths are `Nat`.  The only subtraction in
  the program is `self.items.len() - 1` inside `next`/`previous`; in a
  debug build this underflows (panics) when the list is empty, so both
  methods return `Option`, with `none` standing for the panic.
- `ListState` of the tui crate is reduced to the data the program uses:
  `selected() : Option usize` and `select`, i.e. an `Option Nat` field.
- `Vec` indexing (`app.input[0]`, `app.input[1].push(c)`, `items[i]`)
  panics when out of range; it is modelled with `List.get?` plus a
  bounds-checked update, and the event step function returns `Option`,
  `none` standing for any panic.
- One iteration of the `run_app` loop on one key event is the function
  `step`; `q` returns from `run_app`, modelled by the `quit` outcome.
-/

namespace TodoTui

/-- `Task` from src/lib.rs (`pub mod task`): completion flag, label,
optional details. -/
structure Task where
  done : Bool
  msg : String
  details : Option String
deriving DecidableEq, Repr

/-- `Task::new` from src/lib.rs: `done` starts out `false`. -/
def Task.new (msg : String) (details : Option String) : Task :=
  { done := false, msg := msg, details := details }

/-- `InputMode` from src/ui.rs. -/
inductive InputMode
  | Normal
  | Editing
deriving DecidableEq, Repr

/-- `Popup` from src/ui.rs. -/
inductive Popup
  | NewTaskName
  | NewTaskDetails
deriving DecidableEq, Repr

/-- `StateFullList<T>` from src/ui.rs: `state` is the tui `ListState`,
of which the program only uses the optional selected index. -/
structure StateFullList (T : Type) where
  state : Option Nat
  items : List T
deriving DecidableEq, Repr

/-- `StateFullList::next` from src/ui.rs.  `none` models the
debug-build panic of `self.items.len() - 1` when the list is empty
(that subtraction is evaluated only in the `Some(i)` branch). -/
def StateFullList.next {T : Type} (l : StateFullList T) :
    Option (StateFullList T) :=
  match l.state with
  | some i =>
    if l.items.length = 0 then none
    else if i ≥ l.items.length - 1 then some { l with state := some 0 }
    else some { l with state := some (i + 1) }
  | none => some { l with state := some 0 }

/-- `StateFullList::previous` from src/ui.rs.  `none` models the
debug-build panic of `self.items.len() - 1`, evaluated only when the
selection is `Some(0)`. -/
def StateFullList.previous {T : Type} (l : StateFullList T) :
    Option (StateFullList T) :=
  match l.state with
  | some i =>
    if i = 0 then
      if l.items.length = 0 then none
      else some { l with state := some (l.items.length - 1) }
    else some { l with state := some (i - 1) }
  | none => some { l with state := some 0 }

/-- `App` from src/ui.rs.  `input` is the `Vec<String>` of draft
buffers: index 0 is the name buffer, index 1 the details buffer. -/
structure App where
  popup : Option Popup
  input_mode : InputMode
  input : List String
  list : StateFullList Task
deriving DecidableEq, Repr

/-- `App::new` from src/ui.rs: empty list, no selection, `Normal`
mode, no popup, two empty draft buffers. -/
def App.new : App :=
  { popup := none
    input_mode := InputMode.Normal
    input := ["", ""]
    list := { state := none, items := [] } }

/-- The key codes the program's two `match key.code` dispatches
distinguish; `other` covers every remaining `KeyCode` variant. -/
inductive KeyCode
  | char (c : Char)
  | enter
  | backspace
  | esc
  | other
deriving DecidableEq, Repr

/-- Outcome of one loop iteration of `run_app` on one key event:
either continue with the new `App`, or return (`q` was pressed). -/
inductive StepOut
  | cont (a : App)
  | quit
deriving DecidableEq, Repr

/-- `Vec` index read `l[i]`: `none` models the out-of-range panic. -/
def getAt (l : List String) (i : Nat) : Option String :=
  l.get? i

/-- `Vec` index write `l[i] = s`: `none` models the out-of-range
panic. -/
def setAt (l : List String) (i : Nat) (s : String) :
    Option (List String) :=
  if i < l.length then some (l.set i s) else none

/-- The `KeyCode::Char(c)` arm group of the `InputMode::Normal`
dispatch in `run_app` (src/ui.rs): the five recognised characters, in
the order of the Rust match; any other character falls through to the
`_ => {}` arm. -/
def normalChar (app : App) (c : Char) : Option StepOut :=
  if c = 'q' then some StepOut.quit
  else if c = 'n' then
    some (StepOut.cont { app with
      popup := some Popup.NewTaskName
      input_mode := InputMode.Editing })
  else if c = 'j' then
    if app.list.items.length > 0 then
      (app.list.next).map fun l => StepOut.cont { app with list := l }
    else some (StepOut.cont app)
  else if c = 'k' then
    match app.list.state with
    | some i =>
      if i > 0 then
        (app.list.previous).map fun l =>
          StepOut.cont { app with list := l }
      else some (StepOut.cont app)
    | none =>
      if app.list.items.length > 0 then
        (app.list.previous).map fun l =>
          StepOut.cont { app with list := l }
      else some (StepOut.cont app)
  else if c = 'd' then
    match app.list.state with
    | some i =>
      if i < app.list.items.length then
        some (StepOut.cont { app with
          list := { state := none, items := app.list.items.eraseIdx i } })
      else some (StepOut.cont app)
    | none => some (StepOut.cont app)
  else some (StepOut.cont app)

/-- The `KeyCode::Enter` arm of the `InputMode::Normal` dispatch in
`run_app`: toggle the `done` flag of the selected item.  The `none`
outcome models the `items[i]` panic on an out-of-range index. -/
def normalEnter (app : App) : Option StepOut :=
  match app.list.state with
  | some i =>
    match app.list.items.get? i with
    | some t =>
      some (StepOut.cont { app with
        list := { app.list with
          items := app.list.items.set i { t with done := !t.done } } })
    | none => none
  | none => some (StepOut.cont app)

/-- The `KeyCode::Char(c)` arm of the `InputMode::Editing` dispatch in
`run_app`: append `c` to the buffer selected by the active popup. -/
def editingChar (app : App) (c : Char) : Option StepOut :=
  match app.popup with
  | some Popup.NewTaskName =>
    (getAt app.input 0).bind fun s =>
      (setAt app.input 0 (s.push c)).map fun l =>
        StepOut.cont { app with input := l }
  | some Popup.NewTaskDetails =>
    (getAt app.input 1).bind fun s =>
      (setAt app.input 1 (s.push c)).map fun l =>
        StepOut.cont { app with input := l }
  | none => some (StepOut.cont app)

/-- The `KeyCode::Backspace` arm of the `InputMode::Editing` dispatch
in `run_app`: drop the last character of the active buffer
(`String::pop`). -/
def editingBackspace (app : App) : Option StepOut :=
  match app.popup with
  | some Popup.NewTaskName =>
    (getAt app.input 0).bind fun s =>
      (setAt app.input 0 (s.dropRight 1)).map fun l =>
        StepOut.cont { app with input := l }
  | some Popup.NewTaskDetails =>
    (getAt app.input 1).bind fun s =>
      (setAt app.input 1 (s.dropRight 1)).map fun l =>
        StepOut.cont { app with input := l }
  | none => some (StepOut.cont app)

/-- The `KeyCode::Esc` arm of the `InputMode::Editing` dispatch in
`run_app`: back to `Normal`, popup closed, both buffers reset (first
index 0, then index 1, as in the Rust code). -/
def editingEsc (app : App) : Option StepOut :=
  (setAt app.input 0 "").bind fun l0 =>
    (setAt l0 1 "").map fun l1 =>
      StepOut.cont { app with
        input_mode := InputMode.Normal
        popup := none
        input := l1 }

/-- The `KeyCode::Enter` arm of the `InputMode::Editing` dispatch in
`run_app`.  Note the `NewTaskName` arm tests `!app.input.is_empty()`,
i.e. emptiness of the two-element `Vec<String>` itself, not of the
name buffer `app.input[0]`.  The `NewTaskDetails` arm commits: it
pushes the new `Task` and clears buffer 1 then buffer 0, in the order
of the Rust code. -/
def editingEnter (app : App) : Option StepOut :=
  match app.popup with
  | some Popup.NewTaskName =>
    if !app.input.isEmpty then
      some (StepOut.cont { app with popup := some Popup.NewTaskDetails })
    else some (StepOut.cont app)
  | some Popup.NewTaskDetails =>
    (getAt app.input 1).bind fun s1 =>
      (getAt app.input 0).bind fun s0 =>
        let items :=
          if s1.isEmpty then app.list.items ++ [Task.new s0 none]
          else app.list.items ++ [Task.new s0 (some s1)]
        (setAt app.input 1 "").bind fun l1 =>
          (setAt l1 0 "").map fun l0 =>
            StepOut.cont { app with
              list := { app.list with items := items }
              input := l0
              popup := none
              input_mode := InputMode.Normal }
  | none => some (StepOut.cont app)

/-- One iteration of the `run_app` event loop from src/ui.rs on one
key event: the two mode dispatches (`InputMode::Normal` /
`InputMode::Editing`), with each non-trivial arm named above; the
remaining key codes hit the `_ => {}` arms of the Rust matches.
`none` models a panic (index out of range or `len - 1` underflow). -/
def step (app : App) (k : KeyCode) : Option StepOut :=
  match app.input_mode with
  | InputMode.Normal =>
    match k with
    | KeyCode.char c => normalChar app c
    | KeyCode.enter => normalEnter app
    | KeyCode.backspace => some (StepOut.cont app)
    | KeyCode.esc => some (StepOut.cont app)
    | KeyCode.other => some (StepOut.cont app)
  | InputMode.Editing =>
    match k with
    | KeyCode.char c => editingChar app c
    | KeyCode.backspace => editingBackspace app
    | KeyCode.esc => editingEsc app
    | KeyCode.enter => editingEnter app
    | KeyCode.other => some (StepOut.cont app)

/-- The states the `run_app` loop can reach from `App::new` by key
events (the loop continues only on a `cont` outcome). -/
inductive Reachable : App → Prop
  | refl : Reachable App.new
  | tail {a b : App} {k : KeyCode} :
      Reachable a → step a k = some (StepOut.cont b) → Reachable b

/-- A list of length two is a two-element literal. -/
theorem length_two_ex (l : List String) (h : l.length = 2) :
    ∃ s0 s1, l = [s0, s1] := by
  cases l with
  | nil => simp at h
  | cons a t =>
    cases t with
    | nil => simp at h
    | cons b t2 =>
      cases t2 with
      | nil => exact ⟨a, b, rfl⟩
      | cons c t3 => simp at h

/-- Indexing that answers `some` is in bounds. -/
theorem get?_some_lt {α : Type} {l : List α} {i : Nat} {a : α}
    (h : l.get? i = some a) : i < l.length := by
  induction l generalizing i with
  | nil => simp at h
  | cons x xs ih =>
    cases i with
    | zero => simp
    | succ n =>
      simp only [List.get?] at h
      exact Nat.succ_lt_succ (ih h)

/-- Writing back the value read at an index leaves the list alone. -/
theorem set_get?_eq {α : Type} {l : List α} {i : Nat} {a : α}
    (h : l.get? i = some a) : l.set i a = l := by
  induction l generalizing i with
  | nil => simp at h
  | cons x xs ih =>
    cases i with
    | zero =>
      simp only [List.get?] at h
      cases h
      rfl
    | succ n =>
      simp only [List.get?] at h
      simp [List.set, ih h]

/-- On a non-empty list, `next` keeps the items and lands on an
in-bounds index. -/
theorem next_bounds {T : Type} {ls : Option Nat} {li : List T}
    {l2 : StateFullList T} (hpos : 0 < li.length)
    (h : StateFullList.next { state := ls, items := li } = some l2) :
    l2.items = li ∧ ∃ j, l2.state = some j ∧ j < li.length := by
  cases ls with
  | some i =>
    simp only [StateFullList.next] at h
    rw [if_neg (by omega)] at h
    by_cases hge : i ≥ li.length - 1
    · rw [if_pos hge] at h
      injection h with h2
      subst h2
      exact ⟨rfl, 0, rfl, hpos⟩
    · rw [if_neg hge] at h
      injection h with h2
      subst h2
      exact ⟨rfl, i + 1, rfl, by omega⟩
  | none =>
    simp only [StateFullList.next] at h
    injection h with h2
    subst h2
    exact ⟨rfl, 0, rfl, hpos⟩

/-- On a non-empty list with an in-bounds (or absent) selection,
`previous` keeps the items and lands on an in-bounds index. -/
theorem previous_bounds {T : Type} {ls : Option Nat} {li : List T}
    {l2 : StateFullList T} (hpos : 0 < li.length)
    (hsel : ∀ i, ls = some i → i < li.length)
    (h : StateFullList.previous { state := ls, items := li } = some l2) :
    l2.items = li ∧ ∃ j, l2.state = some j ∧ j < li.length := by
  cases ls with
  | some i =>
    have hi := hsel i rfl
    simp only [StateFullList.previous] at h
    by_cases h0 : i = 0
    · rw [if_pos h0, if_neg (by omega)] at h
      injection h with h2
      subst h2
      exact ⟨rfl, li.length - 1, rfl, by omega⟩
    · rw [if_neg h0] at h
      injection h with h2
      subst h2
      exact ⟨rfl, i - 1, rfl, by omega⟩
  | none =>
    simp only [StateFullList.previous] at h
    injection h with h2
    subst h2
    exact ⟨rfl, 0, rfl, hpos⟩

/-- The state invariant `run_app` maintains: the draft vector has
exactly its two buffers, the selection (when present) is in bounds,
and in `Normal` mode both buffers are empty. -/
def Inv (a : App) : Prop :=
  a.input.length = 2 ∧
  (∀ i, a.list.state = some i → i < a.list.items.length) ∧
  (a.input_mode = InputMode.Normal → a.input = ["", ""])

/-- One `run_app` iteration preserves the invariant. -/
theorem inv_step {a b : App} {k : KeyCode}
    (ha : Inv a) (h : step a k = some (StepOut.cont b)) : Inv b := by
  obtain ⟨hlen, hsel, hnorm⟩ := ha
  obtain ⟨p, m, inp, lst⟩ := a
  obtain ⟨sel, its⟩ := lst
  cases m with
  | Normal =>
    have hinp : inp = ["", ""] := hnorm rfl
    subst hinp
    cases k with
    | char c =>
      cases sel with
      | some i =>
        have hi : i < its.length := hsel i rfl
        simp only [step, normalChar] at h
        split at h
        · simp at h
        · split at h
          · -- 'n'
            simp only [Option.some.injEq, StepOut.cont.injEq] at h
            subst h
            exact ⟨rfl, hsel, by intro hh; simp at hh⟩
          · split at h
            · -- 'j'
              split at h
              · rename_i hpos
                cases hnx : StateFullList.next
                    { state := some i, items := its } with
                | none =>
                  rw [hnx] at h
                  simp at h
                | some l2 =>
                  obtain ⟨ls, li⟩ := l2
                  rw [hnx] at h
                  simp only [Option.map_some', Option.some.injEq,
                    StepOut.cont.injEq] at h
                  subst h
                  obtain ⟨hitems, j, hj, hjlt⟩ := next_bounds hpos hnx
                  subst hitems
                  subst hj
                  refine ⟨rfl, ?_, fun _ => rfl⟩
                  intro j2 hj2
                  simp only [Option.some.injEq] at hj2
                  subst hj2
                  exact hjlt
              · simp only [Option.some.injEq, StepOut.cont.injEq] at h
                subst h
                exact ⟨rfl, hsel, fun _ => rfl⟩
            · split at h
              · -- 'k'
                split at h
                · cases hpv : StateFullList.previous
                      { state := some i, items := its } with
                  | none =>
                    rw [hpv] at h
                    simp at h
                  | some l2 =>
                    obtain ⟨ls, li⟩ := l2
                    rw [hpv] at h
                    simp only [Option.map_some', Option.some.injEq,
                      StepOut.cont.injEq] at h
                    subst h
                    obtain ⟨hitems, j, hj, hjlt⟩ :=
                      previous_bounds (by omega)
                        (by intro j hj; injection hj with hh; omega) hpv
                    subst hitems
                    subst hj
                    refine ⟨rfl, ?_, fun _ => rfl⟩
                    intro j2 hj2
                    simp only [Option.some.injEq] at hj2
                    subst hj2
                    exact hjlt
                · simp only [Option.some.injEq, StepOut.cont.injEq] at h
                  subst h
                  exact ⟨rfl, hsel, fun _ => rfl⟩
              · split at h
                · -- 'd' (the in-range test is discharged by `hi`)
                  simp only [Option.some.injEq, StepOut.cont.injEq] at h
                  subst h
                  exact ⟨rfl, by intro j hj; simp at hj, fun _ => rfl⟩
                · -- other chars
                  simp only [Option.some.injEq, StepOut.cont.injEq] at h
                  subst h
                  exact ⟨rfl, hsel, fun _ => rfl⟩
      | none =>
        simp only [step, normalChar] at h
        split at h
        · simp at h
        · split at h
          · -- 'n'
            simp only [Option.some.injEq, StepOut.cont.injEq] at h
            subst h
            exact ⟨rfl, hsel, by intro hh; simp at hh⟩
          · split at h
            · -- 'j'
              split at h
              · rename_i hpos
                cases hnx : StateFullList.next
                    { state := none, items := its } with
                | none =>
                  rw [hnx] at h
                  simp at h
                | some l2 =>
                  obtain ⟨ls, li⟩ := l2
                  rw [hnx] at h
                  simp only [Option.map_some', Option.some.injEq,
                    StepOut.cont.injEq] at h
                  subst h
                  obtain ⟨hitems, j, hj, hjlt⟩ := next_bounds hpos hnx
                  subst hitems
                  subst hj
                  refine ⟨rfl, ?_, fun _ => rfl⟩
                  intro j2 hj2
                  simp only [Option.some.injEq] at hj2
                  subst hj2
                  exact hjlt
              · simp only [Option.some.injEq, StepOut.cont.injEq] at h
                subst h
                exact ⟨rfl, hsel, fun _ => rfl⟩
            · split at h
              · -- 'k'
                split at h
                · rename_i hpos
                  cases hpv : StateFullList.previous
                      { state := none, items := its } with
                  | none =>
                    rw [hpv] at h
                    simp at h
                  | some l2 =>
                    obtain ⟨ls, li⟩ := l2
                    rw [hpv] at h
                    simp only [Option.map_some', Option.some.injEq,
                      StepOut.cont.injEq] at h
                    subst h
                    obtain ⟨hitems, j, hj, hjlt⟩ :=
                      previous_bounds hpos
                        (by intro j hj; injection hj) hpv
                    subst hitems
                    subst hj
                    refine ⟨rfl, ?_, fun _ => rfl⟩
                    intro j2 hj2
                    simp only [Option.some.injEq] at hj2
                    subst hj2
                    exact hjlt
                · simp only [Option.some.injEq, StepOut.cont.injEq] at h
                  subst h
                  exact ⟨rfl, hsel, fun _ => rfl⟩
              · split at h
                · -- 'd': no selection, no-op
                  simp only [Option.some.injEq, StepOut.cont.injEq] at h
                  subst h
                  exact ⟨rfl, hsel, fun _ => rfl⟩
                · -- other chars
                  simp only [Option.some.injEq, StepOut.cont.injEq] at h
                  subst h
                  exact ⟨rfl, hsel, fun _ => rfl⟩
    | enter =>
      cases sel with
      | some i =>
        have hi : i < its.length := hsel i rfl
        simp only [step, normalEnter] at h
        split at h
        · rename_i t hg
          simp only [Option.some.injEq, StepOut.cont.injEq] at h
          subst h
          refine ⟨rfl, ?_, fun _ => rfl⟩
          intro j hj
          simp only [Option.some.injEq] at hj
          subst hj
          simpa using hi
        · simp at h
      | none =>
        simp only [step, normalEnter] at h
        simp only [Option.some.injEq, StepOut.cont.injEq] at h
        subst h
        exact ⟨rfl, hsel, fun _ => rfl⟩
    | backspace =>
      simp only [step, Option.some.injEq, StepOut.cont.injEq] at h
      subst h
      exact ⟨rfl, hsel, fun _ => rfl⟩
    | esc =>
      simp only [step, Option.some.injEq, StepOut.cont.injEq] at h
      subst h
      exact ⟨rfl, hsel, fun _ => rfl⟩
    | other =>
      simp only [step, Option.some.injEq, StepOut.cont.injEq] at h
      subst h
      exact ⟨rfl, hsel, fun _ => rfl⟩
  | Editing =>
    obtain ⟨s0, s1, hinp⟩ := length_two_ex inp hlen
    subst hinp
    cases k with
    | char c =>
      cases p with
      | some pp =>
        cases pp with
        | NewTaskName =>
          simp only [step, editingChar, getAt, setAt] at h
          simp at h
          subst h
          exact ⟨rfl, hsel, by intro hh; simp at hh⟩
        | NewTaskDetails =>
          simp only [step, editingChar, getAt, setAt] at h
          simp at h
          subst h
          exact ⟨rfl, hsel, by intro hh; simp at hh⟩
      | none =>
        simp only [step, editingChar, Option.some.injEq, StepOut.cont.injEq] at h
        subst h
        exact ⟨rfl, hsel, by intro hh; simp at hh⟩
    | backspace =>
      cases p with
      | some pp =>
        cases pp with
        | NewTaskName =>
          simp only [step, editingBackspace, getAt, setAt] at h
          simp at h
          subst h
          exact ⟨rfl, hsel, by intro hh; simp at hh⟩
        | NewTaskDetails =>
          simp only [step, editingBackspace, getAt, setAt] at h
          simp at h
          subst h
          exact ⟨rfl, hsel, by intro hh; simp at hh⟩
      | none =>
        simp only [step, editingBackspace, Option.some.injEq, StepOut.cont.injEq] at h
        subst h
        exact ⟨rfl, hsel, by intro hh; simp at hh⟩
    | esc =>
      simp only [step, editingEsc, setAt] at h
      simp at h
      subst h
      exact ⟨rfl, hsel, fun _ => rfl⟩
    | enter =>
      cases p with
      | some pp =>
        cases pp with
        | NewTaskName =>
          simp only [step, editingEnter] at h
          split at h
          · simp only [Option.some.injEq, StepOut.cont.injEq] at h
            subst h
            exact ⟨rfl, hsel, by intro hh; simp at hh⟩
          · simp only [Option.some.injEq, StepOut.cont.injEq] at h
            subst h
            exact ⟨rfl, hsel, by intro hh; simp at hh⟩
        | NewTaskDetails =>
          simp only [step, editingEnter, getAt, setAt] at h
          simp at h
          subst h
          refine ⟨rfl, ?_, fun _ => rfl⟩
          intro j hj
          have h2 : j < its.length := hsel j hj
          split <;> simp <;> omega
      | none =>
        simp only [step, editingEnter, Option.some.injEq, StepOut.cont.injEq] at h
        subst h
        exact ⟨rfl, hsel, by intro hh; simp at hh⟩
    | other =>
      simp only [step, Option.some.injEq, StepOut.cont.injEq] at h
      subst h
      exact ⟨rfl, hsel, by intro hh; simp at hh⟩

/-- Every reachable state satisfies the invariant. -/
theorem reachable_inv {a : App} (h : Reachable a) : Inv a := by
  induction h with
  | refl =>
    refine ⟨rfl, ?_, fun _ => rfl⟩
    intro i hi
    simp [App.new] at hi
  | tail _ hstep ih => exact inv_step ih hstep

/-- A sample task, as committed by the wizard for name "a". -/
def taskA : Task := ⟨false, "a", none⟩

/-- A second sample task, for name "b". -/
def taskB : Task := ⟨false, "b", none⟩

/-- The state after `n`, `a`, Enter, Enter from startup: one task,
nothing selected, back in `Normal` mode. -/
def appOneTask : App := ⟨none, InputMode.Normal, ["", ""], ⟨none, [taskA]⟩⟩

/-- `appOneTask` after `j`: the single task is selected. -/
def appSelected : App := ⟨none, InputMode.Normal, ["", ""], ⟨some 0, [taskA]⟩⟩

/-- A two-task `Normal`-mode state with the first task selected. -/
def appTwoSel : App := ⟨none, InputMode.Normal, ["", ""], ⟨some 0, [taskA, taskB]⟩⟩

/-- The key sequence `n`, `a`, Enter, Enter reaches `appOneTask`. -/
theorem reachable_appOneTask : Reachable appOneTask := by
  have r1 : Reachable ⟨some Popup.NewTaskName, InputMode.Editing, ["", ""], ⟨none, []⟩⟩ :=
    Reachable.tail (k := KeyCode.char 'n') Reachable.refl rfl
  have r2 : Reachable ⟨some Popup.NewTaskName, InputMode.Editing, ["a", ""], ⟨none, []⟩⟩ :=
    Reachable.tail (k := KeyCode.char 'a') r1 rfl
  have r3 : Reachable ⟨some Popup.NewTaskDetails, InputMode.Editing, ["a", ""], ⟨none, []⟩⟩ :=
    Reachable.tail (k := KeyCode.enter) r2 rfl
  exact Reachable.tail (k := KeyCode.enter) r3 rfl

/-- One more `j` reaches `appSelected`. -/
theorem reachable_appSelected : Reachable appSelected :=
  Reachable.tail (k := KeyCode.char 'j') reachable_appOneTask rfl

/-- C1: the claim says Enter in Editing/NewTaskName advances only when
the name buffer is non-empty.  The code instead tests
`!app.input.is_empty()` on the two-element buffer vector, which is
always true, so with an empty name buffer Enter still advances to
Editing/NewTaskDetails, and a second Enter then commits a `Task` whose
label is the empty string. -/
theorem C1_empty_name_confirm_advances :
    step ⟨some Popup.NewTaskName, InputMode.Editing, ["", ""], ⟨none, []⟩⟩
        KeyCode.enter =
      some (StepOut.cont
        ⟨some Popup.NewTaskDetails, InputMode.Editing, ["", ""], ⟨none, []⟩⟩) ∧
    step ⟨some Popup.NewTaskDetails, InputMode.Editing, ["", ""], ⟨none, []⟩⟩
        KeyCode.enter =
      some (StepOut.cont
        ⟨none, InputMode.Normal, ["", ""], ⟨none, [Task.mk false "" none]⟩⟩) :=
  ⟨rfl, rfl⟩

/-- C2 counterexample: `next` (and `previous`) on an empty list with
no selection is not a no-op: each sets the selection to index 0. -/
theorem C2_counterexample :
    StateFullList.next ⟨none, ([] : List Task)⟩ = some ⟨some 0, []⟩ ∧
    StateFullList.previous ⟨none, ([] : List Task)⟩ = some ⟨some 0, []⟩ :=
  ⟨rfl, rfl⟩

/-- C2 (amended): the empty-list guard lives in the key dispatch, not
in `next`/`previous`: in `Normal` mode, on an empty list with no
selection, the `j` and `k` handlers are no-ops (no selection is set
and no index arithmetic runs). -/
theorem C2_guarded_noop (a : App) (hm : a.input_mode = InputMode.Normal)
    (hit : a.list.items = []) (hs : a.list.state = none) :
    step a (KeyCode.char 'j') = some (StepOut.cont a) ∧
    step a (KeyCode.char 'k') = some (StepOut.cont a) := by
  obtain ⟨p, m, inp, lst⟩ := a
  obtain ⟨sel, its⟩ := lst
  cases m with
  | Editing => simp at hm
  | Normal =>
    have h1 : its = [] := hit
    have h2 : sel = none := hs
    subst h1
    subst h2
    exact ⟨rfl, rfl⟩

/-- C2 witness: the initial state has an empty list and no selection,
and `j`/`k` leave it unchanged. -/
theorem C2_witness :
    App.new.input_mode = InputMode.Normal ∧ App.new.list.items = [] ∧
      App.new.list.state = none ∧
      (step App.new (KeyCode.char 'j') = some (StepOut.cont App.new) ∧
        step App.new (KeyCode.char 'k') = some (StepOut.cont App.new)) :=
  ⟨rfl, rfl, rfl, C2_guarded_noop App.new rfl rfl rfl⟩

/-- C3 counterexample: on a two-task list with selection 0, key `k`
leaves the selection at 0, not at the last index 1 the claim
requires. -/
theorem C3_counterexample :
    step appTwoSel (KeyCode.char 'k') = some (StepOut.cont appTwoSel) ∧
      appTwoSel.list.state = some 0 ∧
      some 0 ≠ some (appTwoSel.list.items.length - 1) :=
  ⟨rfl, rfl, by decide⟩

/-- C3 (amended): in `Normal` mode with the selection at index 0, key
`k` is a no-op: the handler calls `previous` only when the selected
index is greater than 0, so the selection never wraps to the last
index. -/
theorem C3_k_at_zero_noop (a : App) (hm : a.input_mode = InputMode.Normal)
    (hs : a.list.state = some 0) :
    step a (KeyCode.char 'k') = some (StepOut.cont a) := by
  obtain ⟨p, m, inp, lst⟩ := a
  obtain ⟨sel, its⟩ := lst
  cases m with
  | Editing => simp at hm
  | Normal =>
    have h2 : sel = some 0 := hs
    subst h2
    rfl

/-- C3 witness: `k` on the two-task state with selection 0. -/
theorem C3_witness :
    appTwoSel.input_mode = InputMode.Normal ∧ appTwoSel.list.state = some 0 ∧
      step appTwoSel (KeyCode.char 'k') = some (StepOut.cont appTwoSel) :=
  ⟨rfl, rfl, C3_k_at_zero_noop appTwoSel rfl rfl⟩

/-- C5: in every state reachable from startup by key events, a present
selection is a valid index into the task list; this is maintained by
every operation, being an invariant of `step`. -/
theorem C5_selection_valid (a : App) (hr : Reachable a) :
    ∀ i, a.list.state = some i → i < a.list.items.length :=
  (reachable_inv hr).2.1

/-- C5 witness: a reachable state with the selection on index 0 of a
one-task list. -/
theorem C5_witness :
    Reachable appSelected ∧ 0 < appSelected.list.items.length :=
  ⟨reachable_appSelected, C5_selection_valid appSelected reachable_appSelected 0 rfl⟩

/-- C8 counterexample: from a `Normal` state whose name buffer holds
"x", key `n` opens the wizard without clearing the buffers, so the
name buffer still holds "x" afterwards, not the empty string the claim
requires. -/
theorem C8_counterexample :
    step ⟨none, InputMode.Normal, ["x", ""], ⟨none, []⟩⟩ (KeyCode.char 'n') =
      some (StepOut.cont
        ⟨some Popup.NewTaskName, InputMode.Editing, ["x", ""], ⟨none, []⟩⟩) ∧
    (["x", ""] : List String) ≠ ["", ""] :=
  ⟨rfl, by decide⟩

/-- C8 (amended): key `n` in `Normal` mode opens Editing/NewTaskName
without touching the draft buffers; since every reachable `Normal`
state already has both buffers empty (they are cleared on each return
to `Normal`), the buffers are empty after `n` and no stale input leaks
into the wizard. -/
theorem C8_start_wizard (a : App) (hr : Reachable a)
    (hm : a.input_mode = InputMode.Normal) :
    step a (KeyCode.char 'n') =
      some (StepOut.cont
        { a with popup := some Popup.NewTaskName, input_mode := InputMode.Editing }) ∧
    a.input = ["", ""] := by
  refine ⟨?_, (reachable_inv hr).2.2 hm⟩
  obtain ⟨p, m, inp, lst⟩ := a
  cases m with
  | Editing => simp at hm
  | Normal => rfl

/-- C8 witness: `n` from the initial state. -/
theorem C8_witness :
    Reachable App.new ∧ App.new.input_mode = InputMode.Normal ∧
      (step App.new (KeyCode.char 'n') =
        some (StepOut.cont
          ⟨some Popup.NewTaskName, InputMode.Editing, ["", ""], ⟨none, []⟩⟩) ∧
        App.new.input = ["", ""]) :=
  ⟨Reachable.refl, rfl, C8_start_wizard App.new Reachable.refl rfl⟩

/-- C10: in every reachable state in `Normal` mode both draft buffers
are empty: the Esc and commit transitions clear them on every return
to `Normal`, even though the `n` handler itself clears nothing. -/
theorem C10_normal_buffers_empty (a : App) (hr : Reachable a)
    (hm : a.input_mode = InputMode.Normal) : a.input = ["", ""] :=
  (reachable_inv hr).2.2 hm

/-- C10 witness: the reachable post-commit `Normal` state has empty
buffers. -/
theorem C10_witness :
    Reachable appOneTask ∧ appOneTask.input_mode = InputMode.Normal ∧
      appOneTask.input = ["", ""] :=
  ⟨reachable_appOneTask, rfl,
    C10_normal_buffers_empty appOneTask reachable_appOneTask rfl⟩

/-- Reading an index just written returns the written value. -/
theorem get?_set_self {α : Type} (l : List α) (i : Nat) (x : α)
    (h : i < l.length) : (l.set i x).get? i = some x := by
  induction l generalizing i with
  | nil => simp at h
  | cons y ys ih =>
    cases i with
    | zero => rfl
    | succ n =>
      simp only [List.set, List.get?]
      exact ih n (by simpa using h)

/-- C4: Enter in Editing/NewTaskDetails commits: it appends to the end
of the task list a `Task` whose label is the name buffer, whose
details are absent exactly when the details buffer is empty, and whose
`done` flag is `false`; both buffers are cleared and the state returns
to Normal/None.  The selection is untouched. -/
theorem C4_commit (a : App) (s0 s1 : String)
    (hm : a.input_mode = InputMode.Editing)
    (hp : a.popup = some Popup.NewTaskDetails)
    (hi : a.input = [s0, s1]) :
    step a KeyCode.enter =
      some (StepOut.cont
        ⟨none, InputMode.Normal, ["", ""],
          ⟨a.list.state,
            a.list.items ++
              [Task.mk false s0 (if s1.isEmpty then none else some s1)]⟩⟩) := by
  obtain ⟨p, m, inp, lst⟩ := a
  obtain ⟨sel, its⟩ := lst
  cases m with
  | Normal => simp at hm
  | Editing =>
    have h1 : p = some Popup.NewTaskDetails := hp
    have h2 : inp = [s0, s1] := hi
    subst h1
    subst h2
    by_cases he : s1.isEmpty
    · simp [step, editingEnter, getAt, setAt, Task.new, he]
    · simp [step, editingEnter, getAt, setAt, Task.new, he]

/-- C4 witness: committing with name "a" and details "bc". -/
theorem C4_witness :
    (⟨some Popup.NewTaskDetails, InputMode.Editing, ["a", "bc"], ⟨none, []⟩⟩ :
        App).input_mode = InputMode.Editing ∧
      step ⟨some Popup.NewTaskDetails, InputMode.Editing, ["a", "bc"], ⟨none, []⟩⟩
          KeyCode.enter =
        some (StepOut.cont
          ⟨none, InputMode.Normal, ["", ""],
            ⟨none, [Task.mk false "a" (some "bc")]⟩⟩) :=
  ⟨rfl,
    C4_commit ⟨some Popup.NewTaskDetails, InputMode.Editing, ["a", "bc"], ⟨none, []⟩⟩
      "a" "bc" rfl rfl rfl⟩

/-- C6: key `d` in Normal mode: with a present, valid selection it
removes the selected item and clears the selection; with no selection
it is a no-op.  Whenever a removal occurs, the selection is absent
afterwards. -/
theorem C6_remove_selected (a : App) (hm : a.input_mode = InputMode.Normal) :
    (a.list.state = none → step a (KeyCode.char 'd') = some (StepOut.cont a)) ∧
    (∀ i, a.list.state = some i → i < a.list.items.length →
      step a (KeyCode.char 'd') =
        some (StepOut.cont { a with list := ⟨none, a.list.items.eraseIdx i⟩ })) := by
  obtain ⟨p, m, inp, lst⟩ := a
  obtain ⟨sel, its⟩ := lst
  cases m with
  | Editing => simp at hm
  | Normal =>
    constructor
    · intro hs
      have h2 : sel = none := hs
      subst h2
      rfl
    · intro i hs hlt
      have h2 : sel = some i := hs
      subst h2
      have hred : step ⟨p, InputMode.Normal, inp, ⟨some i, its⟩⟩ (KeyCode.char 'd') =
          if i < its.length then
            some (StepOut.cont ⟨p, InputMode.Normal, inp, ⟨none, its.eraseIdx i⟩⟩)
          else some (StepOut.cont ⟨p, InputMode.Normal, inp, ⟨some i, its⟩⟩) := rfl
      rw [hred, if_pos hlt]

/-- C6 witness: deleting the selected task of the one-task state
yields the initial state again. -/
theorem C6_witness :
    appSelected.input_mode = InputMode.Normal ∧
      appSelected.list.state = some 0 ∧ 0 < appSelected.list.items.length ∧
      step appSelected (KeyCode.char 'd') = some (StepOut.cont App.new) :=
  ⟨rfl, rfl, by decide, (C6_remove_selected appSelected rfl).2 0 rfl (by decide)⟩

/-- C7: Esc from either wizard phase, with any buffer contents,
returns to Normal/None with both buffers empty and the task list (and
selection) unchanged. -/
theorem C7_cancel (a : App) (pp : Popup) (s0 s1 : String)
    (hm : a.input_mode = InputMode.Editing)
    (hp : a.popup = some pp) (hi : a.input = [s0, s1]) :
    step a KeyCode.esc =
      some (StepOut.cont
        { a with input_mode := InputMode.Normal, popup := none, input := ["", ""] }) := by
  obtain ⟨p, m, inp, lst⟩ := a
  cases m with
  | Normal => simp at hm
  | Editing =>
    have h2 : inp = [s0, s1] := hi
    subst h2
    rfl

/-- C7 witness: Esc from the name phase with junk in both buffers
returns to the initial state. -/
theorem C7_witness :
    (⟨some Popup.NewTaskName, InputMode.Editing, ["ab", "cd"], ⟨none, []⟩⟩ :
        App).input_mode = InputMode.Editing ∧
      step ⟨some Popup.NewTaskName, InputMode.Editing, ["ab", "cd"], ⟨none, []⟩⟩
          KeyCode.esc = some (StepOut.cont App.new) :=
  ⟨rfl,
    C7_cancel ⟨some Popup.NewTaskName, InputMode.Editing, ["ab", "cd"], ⟨none, []⟩⟩
      Popup.NewTaskName "ab" "cd" rfl rfl rfl⟩

/-- C9: in a reachable Normal-mode state with a selection, Enter flips
the selected task's `done` flag and changes nothing else, and a second
Enter restores the original state: toggling is an involution. -/
theorem C9_toggle_involution (a : App) (i : Nat) (t : Task)
    (hr : Reachable a) (hm : a.input_mode = InputMode.Normal)
    (hs : a.list.state = some i) (ht : a.list.items.get? i = some t) :
    step a KeyCode.enter =
      some (StepOut.cont
        { a with list := ⟨some i, a.list.items.set i { t with done := !t.done }⟩ }) ∧
    step { a with list := ⟨some i, a.list.items.set i { t with done := !t.done }⟩ }
        KeyCode.enter = some (StepOut.cont a) := by
  obtain ⟨p, m, inp, lst⟩ := a
  obtain ⟨sel, its⟩ := lst
  cases m with
  | Editing => simp at hm
  | Normal =>
    have h2 : sel = some i := hs
    subst h2
    have ht2 : its.get? i = some t := ht
    have hlt : i < its.length := get?_some_lt ht2
    constructor
    · simp only [step, normalEnter, ht2]
    · have hget : (its.set i { t with done := !t.done }).get? i =
          some { t with done := !t.done } :=
        get?_set_self its i _ hlt
      simp only [step, normalEnter, hget]
      rw [List.set_set]
      simp [set_get?_eq ht2]

/-- C9 witness: toggling the selected task of the one-task state twice
returns to it. -/
theorem C9_witness :
    Reachable appSelected ∧ appSelected.input_mode = InputMode.Normal ∧
      appSelected.list.state = some 0 ∧
      appSelected.list.items.get? 0 = some taskA ∧
      (step appSelected KeyCode.enter =
        some (StepOut.cont
          ⟨none, InputMode.Normal, ["", ""], ⟨some 0, [Task.mk true "a" none]⟩⟩) ∧
       step ⟨none, InputMode.Normal, ["", ""], ⟨some 0, [Task.mk true "a" none]⟩⟩
          KeyCode.enter = some (StepOut.cont appSelected)) :=
  ⟨reachable_appSelected, rfl, rfl, rfl,
    C9_toggle_involution appSelected 0 taskA reachable_appSelected rfl rfl rfl⟩

end TodoTui
